import Mathlib

/-!
Verification of the WaveCutter audio core (src/lib/audio-utils.ts):
transient segmentation (findPeaks), WAV encoding (bufferToWav),
slice concatenation (concatenateAudioBuffers) and the playback engine
(playAudio / stopAudio / progressLoop).

Samples are embedded as rationals: every concrete amplitude appearing in
the analysed code paths (thresholds, 0.5, 1.0, scale factors) is exactly
representable, and the code only compares, adds, multiplies and truncates.
-/

set_option maxRecDepth 8000

attribute [local semireducible] Rat.add Rat.mul Rat.sub Rat.inv Rat.ofScientific

namespace WaveCutter

/-- Multi-channel float sample buffer (the relevant fields of a Web Audio
AudioBuffer): per-channel sample arrays, frame count, sample rate. -/
structure SampleBuffer where
  channels : List (List ℚ)
  length : Nat
  sampleRate : Nat
deriving DecidableEq

/-- buffer.numberOfChannels -/
def SampleBuffer.numberOfChannels (b : SampleBuffer) : Nat := b.channels.length

/-- buffer.getChannelData(i) -/
def SampleBuffer.getChannelData (b : SampleBuffer) (i : Nat) : List ℚ :=
  b.channels.getD i []

/-- Structural invariant of an AudioBuffer: every channel array has the
length the buffer reports. -/
def SampleBuffer.valid (b : SampleBuffer) : Prop :=
  ∀ ch ∈ b.channels, ch.length = b.length

/-- Well-formed buffer: structurally valid and with at least one channel
(the Web Audio API only constructs buffers with 1 or more channels). -/
def SampleBuffer.wf (b : SampleBuffer) : Prop :=
  b.channels ≠ [] ∧ b.valid

/-- Slice bounds: sample-index range [start, end) into a source buffer.
The source field name end is a reserved word here, hence endIdx. -/
structure Range where
  start : Nat
  endIdx : Nat
deriving DecidableEq

/-! ## findPeaks (transient segmentation, src/lib/audio-utils.ts) -/

/-- Transient test of the scan loop body, verbatim from the source:
Math.abs(audioData[i]) > threshold AND Math.abs(audioData[i-1]) <= threshold. -/
def isTransient (audioData : List ℚ) (threshold : ℚ) (i : Nat) : Bool :=
  decide (threshold < |audioData.getD i 0|) && decide (|audioData.getD (i - 1) 0| ≤ threshold)

/-- One iteration of the findPeaks for-loop: on a transient, the candidate
slice [lastSliceEnd, i) is pushed and the boundary advanced exactly when its
length reaches minSliceSamples; otherwise the accumulator is unchanged.
The accumulator is (slices, lastSliceEnd). -/
def findPeaksStep (audioData : List ℚ) (threshold minSliceSamples : ℚ)
    (acc : List Range × Nat) (i : Nat) : List Range × Nat :=
  if isTransient audioData threshold i then
    if minSliceSamples ≤ (i : ℚ) - (acc.2 : ℚ) then
      (acc.1 ++ [⟨acc.2, i⟩], i)
    else acc
  else acc

/-- The scan loop of findPeaks: for (let i = 1; i < audioData.length; i++). -/
def findPeaksScan (audioData : List ℚ) (threshold minSliceSamples : ℚ) :
    List Range × Nat :=
  (List.range' 1 (audioData.length - 1)).foldl
    (findPeaksStep audioData threshold minSliceSamples) ([], 0)

/-- slices[slices.length - 1].end = n (mutation of the last pushed slice). -/
def setLastEnd : List Range → Nat → List Range
  | [], _ => []
  | [r], n => [⟨r.start, n⟩]
  | r :: r2 :: rs, n => r :: setLastEnd (r2 :: rs) n

/-- Post-scan fixups of findPeaks, verbatim from the source: append the
remainder as a final slice when it is long enough, otherwise extend the last
accepted slice to the end of the buffer; if nothing was produced and the whole
buffer is long enough, emit one slice covering it. -/
def findPeaksMerge (slices : List Range) (lastSliceEnd len : Nat)
    (minSliceSamples : ℚ) : List Range :=
  let slices2 :=
    if lastSliceEnd < len ∧ minSliceSamples ≤ (len : ℚ) - (lastSliceEnd : ℚ) then
      slices ++ [⟨lastSliceEnd, len⟩]
    else if 0 < slices.length then
      setLastEnd slices len
    else slices
  if slices2.length = 0 ∧ minSliceSamples ≤ (len : ℚ) then
    [⟨0, len⟩]
  else slices2

/-- findPeaks from src/lib/audio-utils.ts. Operates on channel 0. The second
parameter minSilenceDuration is kept for signature compatibility but unused,
as in the source. The id/name decoration of the result (Date.now based ids,
sequential display names) carries no range information and is not modelled. -/
def findPeaks (buffer : SampleBuffer) (threshold _minSilenceDuration minSliceDuration : ℚ) :
    List Range :=
  let audioData := buffer.getChannelData 0
  let minSliceSamples := minSliceDuration * (buffer.sampleRate : ℚ)
  let scanned := findPeaksScan audioData threshold minSliceSamples
  findPeaksMerge scanned.1 scanned.2 audioData.length minSliceSamples

/-- Indices scanned by findPeaks at which the spec detects a transient:
i = 1 .. length-1 with abs(sample[i-1]) <= threshold < abs(sample[i]). -/
def transientIndices (audioData : List ℚ) (threshold : ℚ) : List Nat :=
  (List.range' 1 (audioData.length - 1)).filter (isTransient audioData threshold)

/-- Boundary bookkeeping as worded by the spec: each detected transient closes
the candidate slice that began at the last accepted boundary; the candidate is
accepted exactly when its sample length reaches the minimum, and only an
accepted candidate advances the boundary. -/
def transStep (minSliceSamples : ℚ) (acc : List Range × Nat) (i : Nat) :
    List Range × Nat :=
  if minSliceSamples ≤ (i : ℚ) - (acc.2 : ℚ) then
    (acc.1 ++ [⟨acc.2, i⟩], i)
  else acc

/-- Contiguous partition predicate: the ranges tile [a, b) in order, each
starting where the previous one ended, never running backwards. -/
def chainCover : Nat → List Range → Nat → Prop
  | a, [], b => a = b
  | a, r :: rs, b => r.start = a ∧ a ≤ r.endIdx ∧ chainCover r.endIdx rs b

def chainCoverDec : (a : Nat) → (s : List Range) → (b : Nat) → Decidable (chainCover a s b)
  | a, [], b => by unfold chainCover; exact inferInstance
  | a, r :: rs, b => by
      unfold chainCover
      have : Decidable (chainCover r.endIdx rs b) := chainCoverDec r.endIdx rs b
      exact inferInstance

instance (a : Nat) (s : List Range) (b : Nat) : Decidable (chainCover a s b) :=
  chainCoverDec a s b

instance (b : SampleBuffer) : Decidable b.valid := by
  unfold SampleBuffer.valid
  exact List.decidableBAll _ _

instance (b : SampleBuffer) : Decidable b.wf := by
  unfold SampleBuffer.wf
  exact instDecidableAnd

/-! ## bufferToWav (WAV encoder, src/lib/audio-utils.ts) -/

/-- Truncation toward zero, the effect of the JavaScript bitwise-or-zero
coercion on a value already inside the 32-bit signed range (as every scaled,
clamped sample here is). -/
def ratTrunc (q : ℚ) : Int :=
  if q < 0 then ⌈q⌉ else ⌊q⌋

/-- Per-sample conversion of bufferToWav, verbatim from the source:
sample = Math.max(-1, Math.min(1, s)); then
(0.5 + sample < 0 ? sample * 32768 : sample * 32767) | 0. -/
def sampleToInt16 (s : ℚ) : Int :=
  let sample := max (-1) (min 1 s)
  ratTrunc (if (1 / 2 : ℚ) + sample < 0 then sample * 32768 else sample * 32767)

/-- Little-endian bytes of an unsigned 16-bit value (DataView.setUint16). -/
def u16le (n : Nat) : List Nat :=
  [n % 256, n / 256 % 256]

/-- Little-endian bytes of an unsigned 32-bit value (DataView.setUint32). -/
def u32le (n : Nat) : List Nat :=
  [n % 256, n / 256 % 256, n / 65536 % 256, n / 16777216 % 256]

/-- Little-endian bytes of a signed 16-bit value, two-complement
(DataView.setInt16 with littleEndian = true). -/
def int16le (v : Int) : List Nat :=
  let u := (v % 65536).toNat
  [u % 256, u / 256]

/-- The 44-byte RIFF/WAVE header written by bufferToWav, field by field in
source order. The final data-chunk length is length - pos - 4 with pos = 40
at that point, hence length - 44. -/
def wavHeader (buffer : SampleBuffer) : List Nat :=
  let numOfChan := buffer.numberOfChannels
  let length := buffer.length * numOfChan * 2 + 44
  u32le 0x46464952 ++ u32le (length - 8) ++ u32le 0x45564157 ++
  u32le 0x20746d66 ++ u32le 16 ++ u16le 1 ++ u16le numOfChan ++
  u32le buffer.sampleRate ++ u32le (buffer.sampleRate * 2 * numOfChan) ++
  u16le (numOfChan * 2) ++ u16le 16 ++
  u32le 0x61746164 ++ u32le (length - 44)

/-- Inner loop of the sample-writing while loop: one frame, one 16-bit
sample per channel in channel order. -/
def wavFrame (channels : List (List ℚ)) (offset : Nat) : List Nat :=
  match channels with
  | [] => []
  | ch :: rest => int16le (sampleToInt16 (ch.getD offset 0)) ++ wavFrame rest offset

/-- Outer while (pos < length) loop of bufferToWav: offset advances one
frame per iteration until every frame is written. The loop runs once per
remaining frame, so it is phrased structurally on the count of frames still
to write (framesLeft = numFrames - offset at every iteration). -/
def wavDataGo (channels : List (List ℚ)) : Nat → Nat → List Nat
  | 0, _ => []
  | framesLeft + 1, offset =>
    wavFrame channels offset ++ wavDataGo channels framesLeft (offset + 1)

/-- bufferToWav from src/lib/audio-utils.ts: header then interleaved
16-bit little-endian sample data. -/
def bufferToWav (buffer : SampleBuffer) : List Nat :=
  wavHeader buffer ++ wavDataGo buffer.channels buffer.length 0

/-! ## concatenateAudioBuffers (src/lib/audio-utils.ts) -/

/-- TypedArray.prototype.set(segment, offset): copies segment into dest at
offset, or raises a RangeError when the copy would run past the end. -/
def typedArraySet (dest segment : List ℚ) (offset : Nat) : Except String (List ℚ) :=
  if offset + segment.length ≤ dest.length then
    .ok (dest.take offset ++ segment ++ dest.drop (offset + segment.length))
  else .error "RangeError: offset is out of bounds"

/-- Inner for (const slice of slices) loop of concatenateAudioBuffers:
segment = channelData.slice(slice.start, slice.end) (TypedArray.slice clamps
to the array length); newChannelData.set(segment, offset);
offset += segment.length. -/
def copySlices (srcChannel : List ℚ) :
    List Range → List ℚ → Nat → Except String (List ℚ)
  | [], dest, _ => .ok dest
  | slice :: rest, dest, offset =>
    let segment := (srcChannel.take slice.endIdx).drop slice.start
    match typedArraySet dest segment offset with
    | .error e => .error e
    | .ok dest2 => copySlices srcChannel rest dest2 (offset + segment.length)

/-- Outer for (const channel of ...) loop of concatenateAudioBuffers: each
channel of the fresh zero-filled output buffer is filled independently. -/
def concatChannels (originalBuffer : SampleBuffer) (slices : List Range) (n : Nat) :
    List Nat → Except String (List (List ℚ))
  | [] => .ok []
  | channel :: rest =>
    match copySlices (originalBuffer.getChannelData channel) slices
        (List.replicate n 0) 0 with
    | .error e => .error e
    | .ok d =>
      match concatChannels originalBuffer slices n rest with
      | .error e => .error e
      | .ok ds => .ok (d :: ds)

/-- concatenateAudioBuffers from src/lib/audio-utils.ts. The total length is
computed with JavaScript number subtraction, hence over Int; a non-positive
total throws. The fresh buffer keeps the source channel count and sample
rate. -/
def concatenateAudioBuffers (originalBuffer : SampleBuffer) (slices : List Range) :
    Except String SampleBuffer :=
  let totalLength : Int :=
    slices.foldl (fun sum slice => sum + ((slice.endIdx : Int) - (slice.start : Int))) 0
  if totalLength ≤ 0 then
    .error "No audio data to concatenate."
  else
    match concatChannels originalBuffer slices totalLength.toNat
        (List.range originalBuffer.numberOfChannels) with
    | .error e => .error e
    | .ok chans =>
      .ok { channels := chans, length := totalLength.toNat,
            sampleRate := originalBuffer.sampleRate }

/-- Total requested output length, as a natural number. -/
def sliceTotal (slices : List Range) : Nat :=
  (slices.map fun slice => slice.endIdx - slice.start).sum

def exceptDecEq {ε α : Type} [DecidableEq ε] [DecidableEq α] :
    DecidableEq (Except ε α)
  | .error e, .error f =>
    if h : e = f then isTrue (by rw [h]) else isFalse (fun hh => h (Except.error.inj hh))
  | .error _, .ok _ => isFalse (fun hh => Except.noConfusion hh)
  | .ok _, .error _ => isFalse (fun hh => Except.noConfusion hh)
  | .ok a, .ok b =>
    if h : a = b then isTrue (by rw [h]) else isFalse (fun hh => h (Except.ok.inj hh))

instance {ε α : Type} [DecidableEq ε] [DecidableEq α] : DecidableEq (Except ε α) :=
  exceptDecEq

/-! ## Playback engine (playAudio / stopAudio / progressLoop)

The module-level mutable player state of src/lib/audio-utils.ts is embedded
as an explicit state record; the asynchronous collaborators (the audio node
firing its ended event, the animation-frame scheduler running the pending
progress callback) are host actions of a step relation. Sessions are
identified by the order in which playAudio created them. -/

/-- The AudioBufferSourceNode of the current session: its identity, its loop
flag, and whether the underlying voice has already been stopped. -/
structure SourceNode where
  sid : Nat
  loop : Bool
  stopped : Bool
deriving DecidableEq

/-- Modelled from the spec: the underlying playback resource (the audio
node, external to the repository) may report an error when asked to stop a
source that is already stopped; stopping a live source succeeds. -/
def SourceNode.stop (n : SourceNode) : Except String SourceNode :=
  if n.stopped then .error "InvalidStateError: already stopped"
  else .ok { n with stopped := true }

/-- The module-level mutable state of the player: source, the registered
onended handler, the pending animation-frame callback, onProgressGlobal, and
a counter assigning fresh session ids. Handler and callback slots record
which session they would deliver to. -/
structure PlayerState where
  source : Option SourceNode
  onended : Option Nat
  animationFrameId : Option Nat
  onProgressG : Option Nat
  nextId : Nat
deriving DecidableEq

/-- stopAudio from src/lib/audio-utils.ts: cancel the pending animation
frame, and if a source exists clear its onended handler, stop it inside a
try/catch whose empty catch swallows an already-stopped error, disconnect
and drop it; finally clear onProgressGlobal. -/
def stopAudio (st : PlayerState) : PlayerState :=
  match st.source with
  | some n =>
    let _stopOutcome := n.stop
    { source := none, onended := none, animationFrameId := none,
      onProgressG := none, nextId := st.nextId }
  | none =>
    { st with animationFrameId := none, onProgressG := none }

/-- playAudio from src/lib/audio-utils.ts, session bookkeeping: it first
tears down any existing session via stopAudio, then creates a fresh source,
registers its onended handler, stores onProgress in onProgressGlobal, and
schedules the progress loop when a progress callback was supplied. -/
def playAudio (wantsProgress loop : Bool) (st : PlayerState) : PlayerState :=
  let st1 := stopAudio st
  let j := st1.nextId
  { source := some ⟨j, loop, false⟩,
    onended := some j,
    animationFrameId := if wantsProgress then some j else none,
    onProgressG := if wantsProgress then some j else none,
    nextId := j + 1 }

/-- Callbacks the engine delivers to its caller. -/
inductive PlayerEvent
  | endedCb (sid : Nat)
  | progressCb (sid : Nat)
deriving DecidableEq

/-- Session a delivered callback belongs to. -/
def PlayerEvent.sid : PlayerEvent → Nat
  | .endedCb j => j
  | .progressCb j => j

/-- Host actions driving the engine: the two API calls, the audio node
firing its ended event, and the scheduler running the pending
animation-frame callback. -/
inductive PlayerAction
  | play (wantsProgress loop : Bool)
  | stop
  | ended
  | frame

/-- One step of the engine. play and stop run the API calls (which deliver
no callbacks themselves). ended runs the registered onended handler, which
checks the loop flag of the current global source and on a non-looping
source performs stopAudio and then invokes the session onEnded callback.
frame runs the pending progress callback (progressLoop), which delivers
progress to onProgressGlobal and reschedules itself only while a source
exists. -/
def playerStep (st : PlayerState) : PlayerAction → PlayerState × List PlayerEvent
  | .play w l => (playAudio w l st, [])
  | .stop => (stopAudio st, [])
  | .ended =>
    match st.onended with
    | none => (st, [])
    | some j =>
      match st.source with
      | some n => if n.loop then (st, []) else (stopAudio st, [.endedCb j])
      | none => (stopAudio st, [.endedCb j])
  | .frame =>
    match st.animationFrameId with
    | none => (st, [])
    | some _ =>
      if st.source.isSome then
        match st.onProgressG with
        | some k => (st, [.progressCb k])
        | none => ({ st with animationFrameId := none }, [])
      else ({ st with animationFrameId := none }, [])

/-- Runs a sequence of host actions, collecting every delivered callback. -/
def playerRun (st : PlayerState) : List PlayerAction → PlayerState × List PlayerEvent
  | [] => (st, [])
  | a :: as =>
    let p := playerStep st a
    let q := playerRun p.1 as
    (q.1, p.2 ++ q.2)

/-- State invariant of the player: a registered handler or callback always
belongs to the current source, and the current source id is below the
fresh-id counter. -/
def PlayerInv (st : PlayerState) : Prop :=
  (st.onended = none ∨ st.onended = st.source.map SourceNode.sid) ∧
  (st.onProgressG = none ∨ st.onProgressG = st.source.map SourceNode.sid) ∧
  (match st.source with
   | none => True
   | some n => n.sid < st.nextId)

/-! ## Progress computation (playAudio progress loop) -/

/-- JavaScript remainder: a % b = a - b * trunc(a / b) for finite numbers. -/
def jsMod (a b : ℚ) : ℚ :=
  a - b * (ratTrunc (a / b) : ℚ)

/-- Value handed to onProgress on each tick, verbatim from the progress loop
of playAudio: currentProgress = (elapsedTime / totalDuration) % 1; looping
delivers start / buffer.duration + currentProgress * (totalDuration /
buffer.duration), non-looping delivers (start + elapsedTime) /
buffer.duration. -/
def progressValue (bufferDuration start totalDuration : ℚ) (loop : Bool)
    (elapsedTime : ℚ) : ℚ :=
  let currentProgress := jsMod (elapsedTime / totalDuration) 1
  if loop then
    start / bufferDuration + currentProgress * (totalDuration / bufferDuration)
  else
    (start + elapsedTime) / bufferDuration

/-- Progress value as the spec words it: progress within the current window
(elapsed modulo the window duration when looping, raw elapsed otherwise)
mapped to a normalized position in the source buffer. -/
def progressSpecValue (bufferDuration start totalDuration : ℚ) (loop : Bool)
    (elapsedTime : ℚ) : ℚ :=
  let progressInWindow := if loop then jsMod elapsedTime totalDuration else elapsedTime
  (start + progressInWindow) / bufferDuration

/-- The implicit window length when the duration argument is omitted:
duration ?? (buffer.duration - start). -/
def totalDurationOf (bufferDuration start : ℚ) (duration : Option ℚ) : ℚ :=
  duration.getD (bufferDuration - start)

/-- Sample conversion as the source actually behaves (spec comparison
definition): clamp to [-1, 1]; values strictly below -0.5 scale by 32768,
values at or above -0.5 scale by 32767; truncate toward zero. -/
def specSampleToInt16 (s : ℚ) : Int :=
  let clamped := max (-1) (min 1 s)
  ratTrunc (if clamped < -(1 / 2) then clamped * 32768 else clamped * 32767)

/-- Sample conversion as the spec claims it (comparison definition built
from the spec wording): clamp to [-1, 1]; every negative value scales by
32768 and every non-negative value by 32767; truncate toward zero. -/
def claimedSampleToInt16 (s : ℚ) : Int :=
  let clamped := max (-1) (min 1 s)
  ratTrunc (if clamped < 0 then clamped * 32768 else clamped * 32767)

/-- The 2-channel, one-frame buffer of concrete scenario B: channel 0 holds
1.0, channel 1 holds -1.0. -/
def scenarioB : SampleBuffer := ⟨[[1], [-1]], 1, 44100⟩

/-- A 300-sample mono buffer whose sample at index k is k, used for the
rearrangement scenario of the compositor. -/
def scenarioCBuffer : SampleBuffer :=
  ⟨[(List.range 300).map fun k => (k : ℚ)], 300, 44100⟩

end WaveCutter

namespace WaveCutter

/-! ## Lemmas about the WAV encoder -/

theorem wavFrame_flatMap (channels : List (List ℚ)) (offset : Nat) :
    wavFrame channels offset =
      channels.flatMap fun ch => int16le (sampleToInt16 (ch.getD offset 0)) := by
  induction channels with
  | nil => rfl
  | cons ch rest ih => simp [wavFrame, List.flatMap_cons, ih]

theorem wavDataGo_flatMap (channels : List (List ℚ)) :
    ∀ n offset, wavDataGo channels n offset =
      (List.range' offset n).flatMap (wavFrame channels) := by
  intro n
  induction n with
  | zero => intro offset; rfl
  | succ m ih =>
    intro offset
    simp [wavDataGo, List.range'_succ, List.flatMap_cons, ih]

theorem sampleToInt16_eq_spec (s : ℚ) : sampleToInt16 s = specSampleToInt16 s := by
  have h : ∀ c : ℚ, ((1 : ℚ) / 2 + c < 0) = (c < -(1 / 2)) := by
    intro c
    apply propext
    constructor <;> intro h1 <;> linarith
  unfold sampleToInt16 specSampleToInt16
  simp only [h]

/-- C2: the claim says the scaling switches at zero (negative values by
32768, non-negative by 32767). The source switches at -0.5: the condition
is 0.5 + sample < 0. At sample -1/4 the code scales by 32767 and truncates
to -8191, while the claimed conversion yields -8192; the encoded bytes
differ accordingly. -/
theorem sample_scaling_counterexample :
    sampleToInt16 (-(1 / 4)) = -8191 ∧
    claimedSampleToInt16 (-(1 / 4)) = -8192 ∧
    sampleToInt16 (-(1 / 4)) ≠ claimedSampleToInt16 (-(1 / 4)) ∧
    bufferToWav ⟨[[-(1 / 4)]], 1, 8000⟩ =
      wavHeader ⟨[[-(1 / 4)]], 1, 8000⟩ ++ [1, 224] ∧
    int16le (claimedSampleToInt16 (-(1 / 4))) = [0, 224] := by decide

/-- C2 (amended): bufferToWav clamps each sample to [-1, 1], scales values
strictly below -0.5 by 32768 and values at or above -0.5 (including the
negative values in [-0.5, 0)) by 32767, truncates toward zero, and writes
the signed 16-bit results little-endian, interleaved channel-by-channel
within each frame, after the 44-byte header. -/
theorem bufferToWav_sample_conversion (buffer : SampleBuffer) :
    bufferToWav buffer =
      wavHeader buffer ++
        (List.range buffer.length).flatMap fun offset =>
          buffer.channels.flatMap fun ch =>
            int16le (specSampleToInt16 (ch.getD offset 0)) := by
  unfold bufferToWav
  rw [List.range_eq_range', wavDataGo_flatMap]
  have hframe : wavFrame buffer.channels = fun offset =>
      buffer.channels.flatMap fun ch => int16le (sampleToInt16 (ch.getD offset 0)) :=
    funext (wavFrame_flatMap buffer.channels)
  rw [hframe]
  simp only [sampleToInt16_eq_spec]

/-- C9: the claim states bytes 44-47 are 7F FF 80 00; the encoder writes
little-endian, so the actual bytes are FF 7F 00 80. -/
theorem scenarioB_bytes_counterexample :
    (bufferToWav scenarioB).length = 48 ∧
    (bufferToWav scenarioB).drop 44 ≠ [0x7F, 0xFF, 0x80, 0x00] := by decide

/-- C9 (amended): encoding the 2-channel one-frame buffer with samples 1.0
and -1.0 produces a 48-byte blob whose bytes 44-47 are FF 7F 00 80, the
little-endian 16-bit extremes 0x7FFF and 0x8000 interleaved by channel. -/
theorem scenarioB_bytes :
    (bufferToWav scenarioB).length = 48 ∧
    (bufferToWav scenarioB).drop 44 = [0xFF, 0x7F, 0x00, 0x80] := by decide

/-! ## Lemmas about the findPeaks scan -/

theorem foldl_filter_step {A B : Type} (p : B → Bool) (f : A → B → A) :
    ∀ (l : List B) (init : A),
      (l.filter p).foldl f init =
        l.foldl (fun acc b => if p b then f acc b else acc) init := by
  intro l
  induction l with
  | nil => intro init; rfl
  | cons b bs ih =>
    intro init
    by_cases h : p b
    · simp only [List.filter_cons, h, if_true, List.foldl_cons, ih]
    · simp only [List.filter_cons, h, Bool.false_eq_true, if_false, List.foldl_cons, ih]

theorem findPeaksStep_eq (audioData : List ℚ) (t mss : ℚ)
    (acc : List Range × Nat) (i : Nat) :
    findPeaksStep audioData t mss acc i =
      if isTransient audioData t i then transStep mss acc i else acc := rfl

theorem chainCover_le : ∀ (s : List Range) (a b : Nat), chainCover a s b → a ≤ b := by
  intro s
  induction s with
  | nil => intro a b h; exact Nat.le_of_eq h
  | cons r rs ih => intro a b h; exact le_trans h.2.1 (ih _ _ h.2.2)

theorem chainCover_append_last : ∀ (s : List Range) (a b c : Nat),
    chainCover a s b → b ≤ c → chainCover a (s ++ [⟨b, c⟩]) c := by
  intro s
  induction s with
  | nil =>
    intro a b c h hbc
    exact ⟨h.symm, le_trans (le_of_eq h) hbc, rfl⟩
  | cons r rs ih =>
    intro a b c h hbc
    exact ⟨h.1, h.2.1, ih _ _ _ h.2.2 hbc⟩

theorem setLastEnd_ne_nil : ∀ (s : List Range) (c : Nat), s ≠ [] → setLastEnd s c ≠ [] := by
  intro s c h
  match s with
  | [r] => simp [setLastEnd]
  | r :: r2 :: rs => simp [setLastEnd]

theorem chainCover_setLastEnd : ∀ (s : List Range) (a b c : Nat), s ≠ [] →
    chainCover a s b → b ≤ c → chainCover a (setLastEnd s c) c := by
  intro s
  induction s with
  | nil => intro a b c h; exact absurd rfl h
  | cons r rs ih =>
    intro a b c _ hcc hbc
    match rs, ih with
    | [], _ =>
      have hb : r.endIdx = b := hcc.2.2
      exact ⟨hcc.1, le_trans (le_trans hcc.2.1 (le_of_eq hb)) hbc, rfl⟩
    | r2 :: rs2, ih =>
      exact ⟨hcc.1, hcc.2.1, ih _ _ _ (List.cons_ne_nil r2 rs2) hcc.2.2 hbc⟩

theorem chainCover_mem : ∀ (s : List Range) (a b : Nat), chainCover a s b →
    ∀ r ∈ s, r.start ≤ r.endIdx ∧ r.endIdx ≤ b := by
  intro s
  induction s with
  | nil => intro a b _ r hr; exact absurd hr (List.not_mem_nil r)
  | cons q qs ih =>
    intro a b h r hr
    rcases List.mem_cons.mp hr with hq | hq
    · subst hq
      exact ⟨le_of_eq_of_le h.1 h.2.1, chainCover_le _ _ _ h.2.2⟩
    · exact ih _ _ h.2.2 r hq

theorem findPeaksScan_fold_inv (audioData : List ℚ) (t mss : ℚ) (B : Nat) :
    ∀ (l : List Nat) (acc : List Range × Nat),
      chainCover 0 acc.1 acc.2 → (acc.1 = [] → acc.2 = 0) →
      (∀ j ∈ l, acc.2 ≤ j) → List.Pairwise (· ≤ ·) l → (∀ j ∈ l, j ≤ B) →
      acc.2 ≤ B →
      chainCover 0 (l.foldl (findPeaksStep audioData t mss) acc).1
          (l.foldl (findPeaksStep audioData t mss) acc).2 ∧
        ((l.foldl (findPeaksStep audioData t mss) acc).1 = [] →
          (l.foldl (findPeaksStep audioData t mss) acc).2 = 0) ∧
        (l.foldl (findPeaksStep audioData t mss) acc).2 ≤ B := by
  intro l
  induction l with
  | nil => intro acc h1 h2 _ _ _ h6; exact ⟨h1, h2, h6⟩
  | cons i rest ih =>
    intro acc h1 h2 h3 h4 h5 h6
    rw [List.foldl_cons]
    have hle : acc.2 ≤ i := h3 i (List.mem_cons_self i rest)
    have hiB : i ≤ B := h5 i (List.mem_cons_self i rest)
    have hrest_le : ∀ j ∈ rest, i ≤ j := (List.pairwise_cons.mp h4).1
    have hrest_pw : List.Pairwise (· ≤ ·) rest := (List.pairwise_cons.mp h4).2
    have hrestB : ∀ j ∈ rest, j ≤ B := fun j hj => h5 j (List.mem_cons_of_mem i hj)
    rw [findPeaksStep_eq]
    by_cases ht : isTransient audioData t i
    · rw [if_pos ht]
      unfold transStep
      by_cases hacc : mss ≤ (i : ℚ) - (acc.2 : ℚ)
      · rw [if_pos hacc]
        refine ih _ ?_ ?_ ?_ hrest_pw hrestB hiB
        · exact chainCover_append_last _ _ _ _ h1 hle
        · intro hemp
          exact absurd hemp (by simp)
        · exact hrest_le
      · rw [if_neg hacc]
        exact ih _ h1 h2 (fun j hj => le_trans hle (hrest_le j hj)) hrest_pw hrestB h6
    · rw [if_neg ht]
      exact ih _ h1 h2 (fun j hj => le_trans hle (hrest_le j hj)) hrest_pw hrestB h6

theorem findPeaksScan_inv (audioData : List ℚ) (t mss : ℚ) :
    chainCover 0 (findPeaksScan audioData t mss).1 (findPeaksScan audioData t mss).2 ∧
      ((findPeaksScan audioData t mss).1 = [] → (findPeaksScan audioData t mss).2 = 0) ∧
      (findPeaksScan audioData t mss).2 ≤ audioData.length := by
  unfold findPeaksScan
  refine findPeaksScan_fold_inv audioData t mss audioData.length _ ([], 0) rfl
    (fun _ => rfl) ?_ ?_ ?_ (Nat.zero_le _)
  · intro j _; exact Nat.zero_le j
  · exact (List.pairwise_lt_range' 1 (audioData.length - 1)).imp le_of_lt
  · intro j hj
    have := List.mem_range'_1.mp hj
    omega

theorem findPeaksMerge_cases (s : List Range) (last len : Nat) (mss : ℚ)
    (hc : chainCover 0 s last) (hlen : last ≤ len) :
    findPeaksMerge s last len mss = [] ∨
      chainCover 0 (findPeaksMerge s last len mss) len := by
  simp only [findPeaksMerge]
  split_ifs with h1 h3 h2 h3 h3
  · exfalso
    simp at h3
  · exact Or.inr (chainCover_append_last _ _ _ _ hc (le_of_lt h1.1))
  · exfalso
    have hs : s ≠ [] := by
      intro hemp
      rw [hemp] at h2
      exact absurd h2 (by simp)
    exact absurd (List.length_eq_zero.mp h3.1) (setLastEnd_ne_nil s len hs)
  · right
    have hs : s ≠ [] := by
      intro hemp
      rw [hemp] at h2
      exact absurd h2 (by simp)
    exact chainCover_setLastEnd _ _ _ _ hs hc hlen
  · exact Or.inr ⟨rfl, Nat.zero_le _, rfl⟩
  · left
    have : s.length = 0 := by omega
    exact List.length_eq_zero.mp this

theorem getChannelData_zero_length (b : SampleBuffer) (h : b.wf) :
    (b.getChannelData 0).length = b.length := by
  rcases h with ⟨hne, hval⟩
  cases hch : b.channels with
  | nil => exact absurd hch hne
  | cons c cs =>
    have hm : c ∈ b.channels := by
      rw [hch]
      exact List.mem_cons_self c cs
    have : b.getChannelData 0 = c := by
      simp [SampleBuffer.getChannelData, hch]
    rw [this]
    exact hval c hm

/-- C1: the findPeaks scan over channel 0 visits indices i = 1 .. length-1
and equals the fold of the acceptance step over exactly the transient
indices, the i with abs(sample[i-1]) <= threshold < abs(sample[i]); the
candidate slice from the last accepted boundary to i is accepted iff its
sample length is at least minSliceDuration * sampleRate, and only an
accepted candidate advances the boundary (transStep returns the accumulator
unchanged otherwise, so a rejected short candidate creates no boundary and
its span merges forward into the next accepted slice). -/
theorem findPeaks_scan_spec (buffer : SampleBuffer) (threshold minSliceDuration : ℚ) :
    findPeaksScan (buffer.getChannelData 0) threshold
        (minSliceDuration * (buffer.sampleRate : ℚ)) =
      (transientIndices (buffer.getChannelData 0) threshold).foldl
        (transStep (minSliceDuration * (buffer.sampleRate : ℚ))) ([], 0) ∧
    (∀ i, i ∈ transientIndices (buffer.getChannelData 0) threshold ↔
      1 ≤ i ∧ i < (buffer.getChannelData 0).length ∧
        |(buffer.getChannelData 0).getD (i - 1) 0| ≤ threshold ∧
        threshold < |(buffer.getChannelData 0).getD i 0|) := by
  constructor
  · unfold findPeaksScan transientIndices
    rw [foldl_filter_step]
    rfl
  · intro i
    unfold transientIndices
    rw [List.mem_filter, List.mem_range'_1]
    simp only [isTransient, Bool.and_eq_true, decide_eq_true_eq]
    constructor
    · rintro ⟨⟨hi1, hi2⟩, hA, hB⟩
      exact ⟨hi1, by omega, hB, hA⟩
    · rintro ⟨hi1, hi2, hB, hA⟩
      exact ⟨⟨hi1, by omega⟩, hA, hB⟩

/-- C3: whenever findPeaks returns at least one slice on a well-formed
buffer, the slices tile [0, length) exactly: ascending, non-overlapping,
contiguous, the first starting at 0 and the last ending at the buffer
length. -/
theorem findPeaks_partition (buffer : SampleBuffer)
    (threshold minSilenceDuration minSliceDuration : ℚ)
    (ht0 : 0 ≤ threshold) (ht1 : threshold ≤ 1) (hwf : buffer.wf)
    (hne : findPeaks buffer threshold minSilenceDuration minSliceDuration ≠ []) :
    chainCover 0 (findPeaks buffer threshold minSilenceDuration minSliceDuration)
      buffer.length := by
  have hlen := getChannelData_zero_length buffer hwf
  have hinv := findPeaksScan_inv (buffer.getChannelData 0) threshold
    (minSliceDuration * (buffer.sampleRate : ℚ))
  have hcases := findPeaksMerge_cases
    (findPeaksScan (buffer.getChannelData 0) threshold
      (minSliceDuration * (buffer.sampleRate : ℚ))).1
    (findPeaksScan (buffer.getChannelData 0) threshold
      (minSliceDuration * (buffer.sampleRate : ℚ))).2
    (buffer.getChannelData 0).length
    (minSliceDuration * (buffer.sampleRate : ℚ)) hinv.1 hinv.2.2
  simp only [findPeaks] at hne ⊢
  rw [← hlen]
  rcases hcases with h | h
  · exact absurd h hne
  · exact h

/-- Witness for findPeaks_partition on a concrete buffer. -/
theorem findPeaks_partition_witness :
    chainCover 0 (findPeaks ⟨[[0, 1/2, 1/2, 0]], 4, 1000⟩ (1/5) 0 0)
      (SampleBuffer.mk [[0, 1/2, 1/2, 0]] 4 1000).length :=
  findPeaks_partition ⟨[[0, 1/2, 1/2, 0]], 4, 1000⟩ (1/5) 0 0
    (by decide) (by decide) (by decide) (by decide)

/-- C4: claimed, thresholds outside [0, 1] make findPeaks fail with
InvalidArgument. The source performs no threshold validation: at threshold
2 it returns a slice list. -/
theorem findPeaks_no_threshold_validation_counterexample :
    findPeaks ⟨[[1/2, 1/2, 1/2]], 3, 1000⟩ 2 0 0 = [⟨0, 3⟩] ∧
    findPeaks ⟨[[1/2, 1/2, 1/2]], 3, 1000⟩ 2 0 0 ≠ [] := by decide

/-- C4 (amended): findPeaks is total for every buffer and every threshold,
in or outside [0, 1], with no validation and no failure path: it always
returns a list of well-formed slices within the scanned channel. -/
theorem findPeaks_total (buffer : SampleBuffer)
    (threshold minSilenceDuration minSliceDuration : ℚ) :
    ∀ r ∈ findPeaks buffer threshold minSilenceDuration minSliceDuration,
      r.start ≤ r.endIdx ∧ r.endIdx ≤ (buffer.getChannelData 0).length := by
  intro r hr
  have hinv := findPeaksScan_inv (buffer.getChannelData 0) threshold
    (minSliceDuration * (buffer.sampleRate : ℚ))
  have hcases := findPeaksMerge_cases
    (findPeaksScan (buffer.getChannelData 0) threshold
      (minSliceDuration * (buffer.sampleRate : ℚ))).1
    (findPeaksScan (buffer.getChannelData 0) threshold
      (minSliceDuration * (buffer.sampleRate : ℚ))).2
    (buffer.getChannelData 0).length
    (minSliceDuration * (buffer.sampleRate : ℚ)) hinv.1 hinv.2.2
  simp only [findPeaks] at hr
  rcases hcases with h | h
  · rw [h] at hr
    exact absurd hr (List.not_mem_nil r)
  · exact chainCover_mem _ _ _ h r hr

/-- Witness for findPeaks_total at an out-of-range threshold. -/
theorem findPeaks_total_witness :
    Range.mk 0 3 ∈ findPeaks ⟨[[1/2, 1/2, 1/2]], 3, 1000⟩ 2 0 0 ∧
      (Range.mk 0 3).start ≤ (Range.mk 0 3).endIdx ∧
      (Range.mk 0 3).endIdx ≤
        ((SampleBuffer.mk [[1/2, 1/2, 1/2]] 3 1000).getChannelData 0).length :=
  ⟨by decide,
    findPeaks_total ⟨[[1/2, 1/2, 1/2]], 3, 1000⟩ 2 0 0 ⟨0, 3⟩ (by decide)⟩

/-! ## Lemmas about concatenateAudioBuffers -/

theorem sliceTotal_cons (sl : Range) (rest : List Range) :
    sliceTotal (sl :: rest) = (sl.endIdx - sl.start) + sliceTotal rest := by
  unfold sliceTotal
  rw [List.map_cons, List.sum_cons]

theorem sliceTotal_append (l1 l2 : List Range) :
    sliceTotal (l1 ++ l2) = sliceTotal l1 + sliceTotal l2 := by
  unfold sliceTotal
  rw [List.map_append, List.sum_append]

theorem totalLength_foldl (slices : List Range)
    (hb : ∀ sl ∈ slices, sl.start ≤ sl.endIdx) :
    ∀ init : Int,
      slices.foldl (fun sum slice => sum + ((slice.endIdx : Int) - (slice.start : Int))) init =
        init + (sliceTotal slices : Int) := by
  induction slices with
  | nil => intro init; simp [sliceTotal]
  | cons sl rest ih =>
    intro init
    rw [List.foldl_cons, ih (fun r hr => hb r (List.mem_cons_of_mem sl hr)),
      sliceTotal_cons]
    have hse : sl.start ≤ sl.endIdx := hb sl (List.mem_cons_self sl rest)
    push_cast [Nat.cast_sub hse]
    ring

theorem segment_length (ch : List ℚ) (s e : Nat) :
    ((ch.take e).drop s).length = min e ch.length - s := by
  rw [List.length_drop, List.length_take]

theorem segment_length_le (ch : List ℚ) (s e : Nat) :
    ((ch.take e).drop s).length ≤ e - s := by
  rw [segment_length]
  omega

theorem segment_length_eq (ch : List ℚ) (s e : Nat) (he : e ≤ ch.length) :
    ((ch.take e).drop s).length = e - s := by
  rw [segment_length]
  omega

theorem typedArraySet_ok (dest segment : List ℚ) (offset : Nat)
    (h : offset + segment.length ≤ dest.length) :
    typedArraySet dest segment offset =
      .ok (dest.take offset ++ segment ++ dest.drop (offset + segment.length)) := by
  unfold typedArraySet
  rw [if_pos h]

theorem copySlices_cons_ok (ch : List ℚ) (sl : Range) (rest : List Range)
    (dest : List ℚ) (offset : Nat)
    (h : offset + ((ch.take sl.endIdx).drop sl.start).length ≤ dest.length) :
    copySlices ch (sl :: rest) dest offset =
      copySlices ch rest
        (dest.take offset ++ (ch.take sl.endIdx).drop sl.start ++
          dest.drop (offset + ((ch.take sl.endIdx).drop sl.start).length))
        (offset + ((ch.take sl.endIdx).drop sl.start).length) := by
  show (match typedArraySet dest ((ch.take sl.endIdx).drop sl.start) offset with
      | Except.error e => (Except.error e : Except String (List ℚ))
      | Except.ok dest2 =>
        copySlices ch rest dest2
          (offset + ((ch.take sl.endIdx).drop sl.start).length)) = _
  rw [typedArraySet_ok dest ((ch.take sl.endIdx).drop sl.start) offset h]

theorem copySlices_isOk (ch : List ℚ) :
    ∀ (slices : List Range) (pre suf : List ℚ),
      sliceTotal slices ≤ suf.length →
      ∃ out, copySlices ch slices (pre ++ suf) pre.length = .ok out := by
  intro slices
  induction slices with
  | nil => intro pre suf _; exact ⟨pre ++ suf, rfl⟩
  | cons sl rest ih =>
    intro pre suf hlen
    rw [sliceTotal_cons] at hlen
    have hseg := segment_length_le ch sl.start sl.endIdx
    have hset : pre.length + ((ch.take sl.endIdx).drop sl.start).length ≤
        (pre ++ suf).length := by
      rw [List.length_append]
      omega
    rw [copySlices_cons_ok ch sl rest (pre ++ suf) pre.length hset,
      List.take_left, List.drop_append,
      show pre.length + ((ch.take sl.endIdx).drop sl.start).length =
        (pre ++ (ch.take sl.endIdx).drop sl.start).length from
        (List.length_append _ _).symm]
    refine ih (pre ++ (ch.take sl.endIdx).drop sl.start)
      (suf.drop ((ch.take sl.endIdx).drop sl.start).length) ?_
    rw [List.length_drop]
    omega

theorem copySlices_ok (ch : List ℚ) :
    ∀ (slices : List Range) (pre suf : List ℚ),
      (∀ sl ∈ slices, sl.start ≤ sl.endIdx ∧ sl.endIdx ≤ ch.length) →
      sliceTotal slices ≤ suf.length →
      copySlices ch slices (pre ++ suf) pre.length =
        .ok (pre ++ (slices.flatMap fun sl => (ch.take sl.endIdx).drop sl.start) ++
             suf.drop (sliceTotal slices)) := by
  intro slices
  induction slices with
  | nil =>
    intro pre suf _ _
    show Except.ok (pre ++ suf) = _
    rw [List.flatMap_nil, List.append_nil]
    have h0 : sliceTotal ([] : List Range) = 0 := rfl
    rw [h0, List.drop_zero]
  | cons sl rest ih =>
    intro pre suf hb hlen
    rw [sliceTotal_cons] at hlen
    have hbsl := hb sl (List.mem_cons_self sl rest)
    have hseg : ((ch.take sl.endIdx).drop sl.start).length = sl.endIdx - sl.start :=
      segment_length_eq ch sl.start sl.endIdx hbsl.2
    have hset : pre.length + ((ch.take sl.endIdx).drop sl.start).length ≤
        (pre ++ suf).length := by
      rw [List.length_append, hseg]
      omega
    rw [copySlices_cons_ok ch sl rest (pre ++ suf) pre.length hset,
      List.take_left, List.drop_append,
      show pre.length + ((ch.take sl.endIdx).drop sl.start).length =
        (pre ++ (ch.take sl.endIdx).drop sl.start).length from
        (List.length_append _ _).symm]
    rw [ih (pre ++ (ch.take sl.endIdx).drop sl.start)
      (suf.drop ((ch.take sl.endIdx).drop sl.start).length)
      (fun r hr => hb r (List.mem_cons_of_mem sl hr))
      (by rw [List.length_drop, hseg]; omega)]
    rw [List.drop_drop, List.flatMap_cons, sliceTotal_cons, hseg]
    simp only [List.append_assoc]

theorem concatChannels_map (orig : SampleBuffer) (slices : List Range)
    (hb : ∀ sl ∈ slices, sl.start ≤ sl.endIdx ∧ sl.endIdx ≤ orig.length)
    (hval : orig.valid) :
    ∀ l : List Nat, (∀ i ∈ l, i < orig.numberOfChannels) →
      concatChannels orig slices (sliceTotal slices) l =
        .ok (l.map fun i => slices.flatMap fun sl =>
          ((orig.getChannelData i).take sl.endIdx).drop sl.start) := by
  intro l
  induction l with
  | nil => intro _; rfl
  | cons i rest ih =>
    intro hl
    have hi : i < orig.channels.length := hl i (List.mem_cons_self i rest)
    have hch : (orig.getChannelData i).length = orig.length := by
      unfold SampleBuffer.getChannelData
      have hget : orig.channels.getD i [] = orig.channels[i] := by
        rw [List.getD_eq_getElem?_getD, List.getElem?_eq_getElem hi]
        rfl
      rw [hget]
      exact hval _ (List.getElem_mem hi)
    have hbch : ∀ sl ∈ slices,
        sl.start ≤ sl.endIdx ∧ sl.endIdx ≤ (orig.getChannelData i).length := by
      intro sl hsl
      rw [hch]
      exact hb sl hsl
    have hcopy := copySlices_ok (orig.getChannelData i) slices []
      (List.replicate (sliceTotal slices) 0) hbch
      (by rw [List.length_replicate])
    simp only [List.nil_append, List.length_nil,
      List.drop_eq_nil_of_le (le_of_eq (List.length_replicate _ _)),
      List.append_nil] at hcopy
    unfold concatChannels
    rw [hcopy, ih (fun j hj => hl j (List.mem_cons_of_mem i hj)), List.map_cons]

theorem concatChannels_isOk (orig : SampleBuffer) (slices : List Range) (n : Nat)
    (hn : sliceTotal slices ≤ n) :
    ∀ l : List Nat, ∃ out, concatChannels orig slices n l = .ok out := by
  intro l
  induction l with
  | nil => exact ⟨[], rfl⟩
  | cons i rest ih =>
    have hcopy := copySlices_isOk (orig.getChannelData i) slices []
      (List.replicate n 0) (by rw [List.length_replicate]; omega)
    simp only [List.nil_append, List.length_nil] at hcopy
    rcases hcopy with ⟨d, hd⟩
    rcases ih with ⟨ds, hds⟩
    refine ⟨d :: ds, ?_⟩
    unfold concatChannels
    rw [hd, hds]

theorem range_map_getD {α β : Type} (d : α) (f : α → β) :
    ∀ l : List α, (List.range l.length).map (fun i => f (l.getD i d)) = l.map f := by
  intro l
  induction l with
  | nil => rfl
  | cons x xs ih =>
    rw [List.length_cons, List.range_succ_eq_map, List.map_cons, List.map_map]
    rw [List.map_cons]
    congr 1

theorem concatChannels_channels_map (orig : SampleBuffer) (slices : List Range)
    (hb : ∀ sl ∈ slices, sl.start ≤ sl.endIdx ∧ sl.endIdx ≤ orig.length)
    (hval : orig.valid) :
    concatChannels orig slices (sliceTotal slices) (List.range orig.numberOfChannels) =
      .ok (orig.channels.map fun ch =>
        slices.flatMap fun sl => (ch.take sl.endIdx).drop sl.start) := by
  rw [concatChannels_map orig slices hb hval _ (fun i hi => List.mem_range.mp hi)]
  congr 1
  exact range_map_getD ([] : List ℚ)
    (fun ch => slices.flatMap fun sl => (ch.take sl.endIdx).drop sl.start) orig.channels

/-- C8: on a valid buffer and in-bounds slices with positive summed length,
concatenateAudioBuffers returns a fresh buffer with the source sample rate
and channel count whose length is the sum of the slice lengths and whose
per-channel contents are the referenced source ranges copied at cumulative
offsets in list order (list order, not source order, decides placement). -/
theorem concatenate_list_order (orig : SampleBuffer) (slices : List Range)
    (hb : ∀ sl ∈ slices, sl.start ≤ sl.endIdx ∧ sl.endIdx ≤ orig.length)
    (hval : orig.valid) (hpos : 0 < sliceTotal slices) :
    concatenateAudioBuffers orig slices =
      .ok ⟨orig.channels.map fun ch =>
             slices.flatMap fun sl => (ch.take sl.endIdx).drop sl.start,
           sliceTotal slices, orig.sampleRate⟩ := by
  simp only [concatenateAudioBuffers]
  rw [totalLength_foldl slices (fun sl hsl => (hb sl hsl).1) 0, zero_add]
  rw [if_neg (by omega)]
  rw [Int.toNat_natCast]
  rw [concatChannels_channels_map orig slices hb hval]

/-- Witness for concatenate_list_order: the rearrangement scenario.
concatenate(buffer, [{200,300},{0,100}]) yields a 200-sample output whose
first 100 samples are source samples 200..299 and next 100 are source
samples 0..99. -/
theorem concatenate_list_order_witness :
    concatenateAudioBuffers scenarioCBuffer [⟨200, 300⟩, ⟨0, 100⟩] =
      .ok ⟨[((List.range' 200 100).map fun k => (k : ℚ)) ++
            ((List.range' 0 100).map fun k => (k : ℚ))], 200, 44100⟩ := by
  rw [concatenate_list_order scenarioCBuffer [⟨200, 300⟩, ⟨0, 100⟩]
    (by decide) (by decide) (by decide)]
  decide

/-- C10: under the in-bounds precondition (0 <= start <= end <= source
length for every slice) and a positive summed length,
concatenateAudioBuffers reaches no error branch: the copy loop succeeds,
and every cumulative destination offset (the summed length of any processed
prefix) stays within the output length. -/
theorem concatenate_in_bounds (orig : SampleBuffer) (slices : List Range)
    (hb : ∀ sl ∈ slices, sl.start ≤ sl.endIdx ∧ sl.endIdx ≤ orig.length)
    (hpos : 0 < sliceTotal slices) :
    (∃ out, concatenateAudioBuffers orig slices = .ok out) ∧
    ∀ k, sliceTotal (slices.take k) ≤ sliceTotal slices := by
  constructor
  · simp only [concatenateAudioBuffers]
    rw [totalLength_foldl slices (fun sl hsl => (hb sl hsl).1) 0, zero_add]
    rw [if_neg (by omega)]
    rw [Int.toNat_natCast]
    rcases concatChannels_isOk orig slices (sliceTotal slices) le_rfl
      (List.range orig.numberOfChannels) with ⟨chans, hch⟩
    exact ⟨_, by rw [hch]⟩
  · intro k
    conv_rhs => rw [← List.take_append_drop k slices]
    rw [sliceTotal_append]
    omega

/-- Witness for concatenate_in_bounds at overlapping concrete slices. -/
theorem concatenate_in_bounds_witness :
    (∃ out, concatenateAudioBuffers ⟨[[1, 2, 3]], 3, 8000⟩ [⟨0, 2⟩, ⟨1, 3⟩] =
      .ok out) ∧
    ∀ k, sliceTotal (([⟨0, 2⟩, ⟨1, 3⟩] : List Range).take k) ≤
      sliceTotal [⟨0, 2⟩, ⟨1, 3⟩] :=
  concatenate_in_bounds ⟨[[1, 2, 3]], 3, 8000⟩ [⟨0, 2⟩, ⟨1, 3⟩]
    (by decide) (by decide)

/-! ## Lemmas about the playback engine -/

theorem stopAudio_source (st : PlayerState) : (stopAudio st).source = none := by
  rcases st with ⟨src, oe, af, opg, nid⟩
  cases src <;> rfl

theorem stopAudio_afid (st : PlayerState) : (stopAudio st).animationFrameId = none := by
  rcases st with ⟨src, oe, af, opg, nid⟩
  cases src <;> rfl

theorem stopAudio_opg (st : PlayerState) : (stopAudio st).onProgressG = none := by
  rcases st with ⟨src, oe, af, opg, nid⟩
  cases src <;> rfl

theorem stopAudio_nextId (st : PlayerState) : (stopAudio st).nextId = st.nextId := by
  rcases st with ⟨src, oe, af, opg, nid⟩
  cases src <;> rfl

theorem stopAudio_onended (st : PlayerState) (hinv : PlayerInv st) :
    (stopAudio st).onended = none := by
  rcases st with ⟨src, oe, af, opg, nid⟩
  cases src with
  | some n => rfl
  | none =>
    rcases hinv.1 with h1 | h1 <;> exact h1

theorem playAudio_fields (w l : Bool) (st : PlayerState) :
    playAudio w l st =
      { source := some ⟨st.nextId, l, false⟩,
        onended := some st.nextId,
        animationFrameId := if w then some st.nextId else none,
        onProgressG := if w then some st.nextId else none,
        nextId := st.nextId + 1 } := by
  simp only [playAudio, stopAudio_nextId]

theorem stopAudio_inv (st : PlayerState) (hinv : PlayerInv st) :
    PlayerInv (stopAudio st) := by
  refine ⟨Or.inl (stopAudio_onended st hinv), Or.inl (stopAudio_opg st), ?_⟩
  rw [stopAudio_source]
  trivial

theorem playAudio_inv (w l : Bool) (st : PlayerState) :
    PlayerInv (playAudio w l st) := by
  rw [playAudio_fields]
  refine ⟨Or.inr rfl, ?_, ?_⟩
  · cases w
    · exact Or.inl rfl
    · exact Or.inr rfl
  · show st.nextId < st.nextId + 1
    omega

theorem playerStep_inv (st : PlayerState) (a : PlayerAction) (hinv : PlayerInv st) :
    PlayerInv (playerStep st a).1 := by
  cases a with
  | play w l => exact playAudio_inv w l st
  | stop => exact stopAudio_inv st hinv
  | ended =>
    rcases st with ⟨src, oe, af, opg, nid⟩
    cases oe with
    | none => exact hinv
    | some j =>
      cases src with
      | some n =>
        rcases n with ⟨sid, loop, stopped⟩
        cases loop
        · exact stopAudio_inv _ hinv
        · exact hinv
      | none => exact stopAudio_inv _ hinv
  | frame =>
    rcases st with ⟨src, oe, af, opg, nid⟩
    cases af with
    | none => exact hinv
    | some fid =>
      cases src with
      | some n =>
        cases opg with
        | some k => exact hinv
        | none => exact ⟨hinv.1, Or.inl rfl, hinv.2.2⟩
      | none => exact ⟨hinv.1, hinv.2.1, hinv.2.2⟩

theorem playerStep_events (st : PlayerState) (a : PlayerAction) (hinv : PlayerInv st) :
    ∀ e ∈ (playerStep st a).2, ∃ n, st.source = some n ∧ e.sid = n.sid := by
  cases a with
  | play w l => intro e he; exact absurd he (List.not_mem_nil e)
  | stop => intro e he; exact absurd he (List.not_mem_nil e)
  | ended =>
    rcases st with ⟨src, oe, af, opg, nid⟩
    cases oe with
    | none => intro e he; exact absurd he (List.not_mem_nil e)
    | some j =>
      cases src with
      | some n =>
        have hj : j = n.sid := by
          rcases hinv.1 with h1 | h1
          · exact absurd h1 (by simp)
          · exact Option.some.inj h1
        rcases n with ⟨sid, loop, stopped⟩
        cases loop
        · intro e he
          rcases List.mem_singleton.mp he with rfl
          exact ⟨⟨sid, false, stopped⟩, rfl, hj⟩
        · intro e he
          exact absurd he (List.not_mem_nil e)
      | none =>
        exfalso
        rcases hinv.1 with h1 | h1 <;> exact Option.noConfusion h1
  | frame =>
    rcases st with ⟨src, oe, af, opg, nid⟩
    cases af with
    | none => intro e he; exact absurd he (List.not_mem_nil e)
    | some fid =>
      cases src with
      | some n =>
        cases opg with
        | some k =>
          intro e he
          rcases List.mem_singleton.mp he with rfl
          have hk : k = n.sid := by
            rcases hinv.2.1 with h2 | h2
            · exact absurd h2 (by simp)
            · exact Option.some.inj h2
          exact ⟨n, rfl, hk⟩
        | none => intro e he; exact absurd he (List.not_mem_nil e)
      | none => intro e he; exact absurd he (List.not_mem_nil e)

theorem playerStep_source (st : PlayerState) (a : PlayerAction) (n' : SourceNode) :
    (playerStep st a).1.source = some n' →
      (∃ n, st.source = some n ∧ n'.sid = n.sid) ∨ st.nextId ≤ n'.sid := by
  cases a with
  | play w l =>
    rw [show (playerStep st (PlayerAction.play w l)).1 = playAudio w l st from rfl,
      playAudio_fields]
    intro h
    right
    have he : (⟨st.nextId, l, false⟩ : SourceNode) = n' := Option.some.inj h
    rw [← he]
  | stop =>
    intro h
    rw [show (playerStep st PlayerAction.stop).1 = stopAudio st from rfl,
      stopAudio_source] at h
    exact absurd h (by simp)
  | ended =>
    rcases st with ⟨src, oe, af, opg, nid⟩
    cases oe with
    | none => intro h; exact Or.inl ⟨n', h, rfl⟩
    | some j =>
      cases src with
      | some n =>
        rcases n with ⟨sid, loop, stopped⟩
        cases loop
        · intro h
          exact absurd ((stopAudio_source _).symm.trans h) (by simp)
        · intro h
          exact Or.inl ⟨n', h, rfl⟩
      | none =>
        intro h
        exact absurd ((stopAudio_source _).symm.trans h) (by simp)
  | frame =>
    rcases st with ⟨src, oe, af, opg, nid⟩
    cases af with
    | none => intro h; exact Or.inl ⟨n', h, rfl⟩
    | some fid =>
      cases src with
      | some n =>
        cases opg with
        | some k => intro h; exact Or.inl ⟨n', h, rfl⟩
        | none => intro h; exact Or.inl ⟨n', h, rfl⟩
      | none => intro h; exact Or.inl ⟨n', h, rfl⟩

theorem playerStep_nextId (st : PlayerState) (a : PlayerAction) :
    st.nextId ≤ (playerStep st a).1.nextId := by
  cases a with
  | play w l =>
    rw [show (playerStep st (PlayerAction.play w l)).1 = playAudio w l st from rfl,
      playAudio_fields]
    exact Nat.le_succ _
  | stop =>
    rw [show (playerStep st PlayerAction.stop).1 = stopAudio st from rfl,
      stopAudio_nextId]
  | ended =>
    rcases st with ⟨src, oe, af, opg, nid⟩
    cases oe with
    | none => exact le_rfl
    | some j =>
      cases src with
      | some n =>
        rcases n with ⟨sid, loop, stopped⟩
        cases loop
        · exact (stopAudio_nextId _).symm.le
        · exact le_rfl
      | none => exact (stopAudio_nextId _).symm.le
  | frame =>
    rcases st with ⟨src, oe, af, opg, nid⟩
    cases af with
    | none => exact le_rfl
    | some fid =>
      cases src with
      | some n =>
        cases opg with
        | some k => exact le_rfl
        | none => exact le_rfl
      | none => exact le_rfl

theorem playerRun_events (acts : List PlayerAction) :
    ∀ st : PlayerState, PlayerInv st →
      ∀ e ∈ (playerRun st acts).2,
        (∃ n, st.source = some n ∧ e.sid = n.sid) ∨ st.nextId ≤ e.sid := by
  induction acts with
  | nil => intro st _ e he; exact absurd he (List.not_mem_nil e)
  | cons a rest ih =>
    intro st hinv e he
    simp only [playerRun] at he
    rcases List.mem_append.mp he with h1 | h2
    · exact Or.inl (playerStep_events st a hinv e h1)
    · rcases ih (playerStep st a).1 (playerStep_inv st a hinv) e h2 with
        ⟨n', hn', hsid⟩ | hge
      · rcases playerStep_source st a n' hn' with ⟨n, hn, hsid'⟩ | hge'
        · exact Or.inl ⟨n, hn, by rw [hsid, hsid']⟩
        · exact Or.inr (by omega)
      · exact Or.inr (le_trans (playerStep_nextId st a) hge)

/-- C5: preemption is silent and complete. If a session n is current and
playAudio is called, the new engine state holds no handler, progress
callback or pending frame for n, and no callback delivered during any
later sequence of host actions ever belongs to n: the old polling is
halted before the new session starts and the old onEnded can never fire. -/
theorem playAudio_preempts_silently (st : PlayerState) (n : SourceNode)
    (w l : Bool) (acts : List PlayerAction)
    (hinv : PlayerInv st) (hcur : st.source = some n) :
    ((playAudio w l st).onended ≠ some n.sid ∧
     (playAudio w l st).onProgressG ≠ some n.sid ∧
     (playAudio w l st).animationFrameId ≠ some n.sid) ∧
    ∀ e ∈ (playerRun (playAudio w l st) acts).2, e.sid ≠ n.sid := by
  have hlt : n.sid < st.nextId := by
    have h3 := hinv.2.2
    rw [hcur] at h3
    exact h3
  constructor
  · rw [playAudio_fields]
    refine ⟨?_, ?_, ?_⟩
    · intro hq
      have := Option.some.inj hq
      omega
    · cases w
      · intro hq
        exact Option.noConfusion hq
      · intro hq
        have := Option.some.inj hq
        omega
    · cases w
      · intro hq
        exact Option.noConfusion hq
      · intro hq
        have := Option.some.inj hq
        omega
  · intro e he
    have hinv2 : PlayerInv (playAudio w l st) := playAudio_inv w l st
    rcases playerRun_events acts (playAudio w l st) hinv2 e he with ⟨m, hm, hsid⟩ | hge
    · rw [playAudio_fields] at hm
      have hm2 : (⟨st.nextId, l, false⟩ : SourceNode) = m := Option.some.inj hm
      rw [hsid, ← hm2]
      show st.nextId ≠ n.sid
      omega
    · have hnid : (playAudio w l st).nextId = st.nextId + 1 := by
        rw [playAudio_fields]
      rw [hnid] at hge
      omega

/-- Witness for playAudio_preempts_silently: a concrete playing session 0
preempted by a new session, then driven through frame, ended, another play
and another frame; no delivered callback belongs to session 0. -/
theorem playAudio_preempts_silently_witness :
    (((playAudio true false
        ⟨some ⟨0, false, false⟩, some 0, some 0, some 0, 1⟩).onended ≠ some 0 ∧
      (playAudio true false
        ⟨some ⟨0, false, false⟩, some 0, some 0, some 0, 1⟩).onProgressG ≠ some 0 ∧
      (playAudio true false
        ⟨some ⟨0, false, false⟩, some 0, some 0, some 0, 1⟩).animationFrameId ≠ some 0) ∧
     ∀ e ∈ (playerRun (playAudio true false
        ⟨some ⟨0, false, false⟩, some 0, some 0, some 0, 1⟩)
        [.frame, .ended, .play true false, .frame]).2, e.sid ≠ 0) :=
  playAudio_preempts_silently
    ⟨some ⟨0, false, false⟩, some 0, some 0, some 0, 1⟩ ⟨0, false, false⟩
    true false [.frame, .ended, .play true false, .frame]
    ⟨Or.inr rfl, Or.inr rfl, Nat.zero_lt_one⟩ rfl

/-- C6: stopAudio is safe in every state. It is idempotent, a no-op from
Idle, always lands in Idle with polling cancelled and callbacks cleared,
and when the current source is already stopped the underlying stop raises
an error that the empty catch swallows: stopAudio still returns the same
Idle state. -/
theorem stopAudio_safe (st : PlayerState) (hinv : PlayerInv st) :
    stopAudio (stopAudio st) = stopAudio st ∧
    (st.source = none ∧ st.animationFrameId = none ∧ st.onProgressG = none →
      stopAudio st = st) ∧
    (stopAudio st).source = none ∧ (stopAudio st).onended = none ∧
    (stopAudio st).animationFrameId = none ∧ (stopAudio st).onProgressG = none ∧
    (∀ n, st.source = some n → n.stopped = true →
      n.stop = Except.error "InvalidStateError: already stopped") := by
  refine ⟨?_, ?_, stopAudio_source st, stopAudio_onended st hinv,
    stopAudio_afid st, stopAudio_opg st, ?_⟩
  · rcases st with ⟨src, oe, af, opg, nid⟩
    cases src <;> rfl
  · rintro ⟨h1, h2, h3⟩
    rcases st with ⟨src, oe, af, opg, nid⟩
    cases src with
    | some n => exact Option.noConfusion h1
    | none =>
      dsimp only at h2 h3
      rw [show stopAudio ⟨none, oe, af, opg, nid⟩ =
        ⟨none, oe, none, none, nid⟩ from rfl, h2, h3]
  · intro n hsrc hstopped
    unfold SourceNode.stop
    rw [if_pos hstopped]

/-- Witness for stopAudio_safe on a session whose source already stopped. -/
theorem stopAudio_safe_witness :
    (stopAudio (stopAudio ⟨some ⟨5, false, true⟩, some 5, none, none, 6⟩) =
      stopAudio ⟨some ⟨5, false, true⟩, some 5, none, none, 6⟩) ∧
    ((⟨some ⟨5, false, true⟩, some 5, none, none, 6⟩ : PlayerState).source = none ∧
      (⟨some ⟨5, false, true⟩, some 5, none, none, 6⟩ : PlayerState).animationFrameId = none ∧
      (⟨some ⟨5, false, true⟩, some 5, none, none, 6⟩ : PlayerState).onProgressG = none →
      stopAudio ⟨some ⟨5, false, true⟩, some 5, none, none, 6⟩ =
        ⟨some ⟨5, false, true⟩, some 5, none, none, 6⟩) ∧
    (stopAudio ⟨some ⟨5, false, true⟩, some 5, none, none, 6⟩).source = none ∧
    (stopAudio ⟨some ⟨5, false, true⟩, some 5, none, none, 6⟩).onended = none ∧
    (stopAudio ⟨some ⟨5, false, true⟩, some 5, none, none, 6⟩).animationFrameId = none ∧
    (stopAudio ⟨some ⟨5, false, true⟩, some 5, none, none, 6⟩).onProgressG = none ∧
    (∀ n, (⟨some ⟨5, false, true⟩, some 5, none, none, 6⟩ : PlayerState).source = some n →
      n.stopped = true →
      n.stop = Except.error "InvalidStateError: already stopped") :=
  stopAudio_safe ⟨some ⟨5, false, true⟩, some 5, none, none, 6⟩
    ⟨Or.inr rfl, Or.inl rfl, by show 5 < 6; omega⟩

/-! ## Progress value -/

/-- C7: each progress tick delivers the normalized source-buffer position
(start + progressInWindow) / bufferDuration, where progressInWindow is the
elapsed time modulo the window duration when looping and the raw elapsed
time otherwise. -/
theorem progress_normalized (bufferDuration start totalDuration : ℚ)
    (loop : Bool) (elapsedTime : ℚ) (hT : totalDuration ≠ 0) :
    progressValue bufferDuration start totalDuration loop elapsedTime =
      progressSpecValue bufferDuration start totalDuration loop elapsedTime := by
  rcases eq_or_ne bufferDuration 0 with hD | hD
  · cases loop <;> simp [progressValue, progressSpecValue, jsMod, hD]
  · cases loop with
    | false => simp [progressValue, progressSpecValue, jsMod]
    | true =>
      simp only [progressValue, progressSpecValue, jsMod, if_true, div_one, one_mul]
      field_simp

/-- Witness for progress_normalized at concrete inputs. -/
theorem progress_normalized_witness :
    (2 : ℚ) ≠ 0 ∧
      progressValue 10 3 2 true 5 = progressSpecValue 10 3 2 true 5 :=
  ⟨by decide, progress_normalized 10 3 2 true 5 (by decide)⟩

end WaveCutter
